import Mathlib

/-!
Verification of the cipher core of permuteseq (permuteseq.c): a keyed
pseudo-random permutation of an integer interval built from a balanced
Feistel network with a cycle-walking loop.

Modelling conventions:
* C `int64` values are represented as `Int`; where the C code performs
  arithmetic that can overflow (undefined behaviour, which gcc/clang compile
  to two's-complement wrap-around on every platform the extension targets),
  the wrap is made explicit with `wrapI64` / reinterpretation `toU64`.
* C `uint64` / `uint32` values are represented as `Nat` with explicit
  `% 2^64` / `% 2^32` reductions exactly where the C truncates.
* `hash_uint32` comes from the PostgreSQL server headers, not from this
  repository; it is modelled from the spec (an arbitrary deterministic
  32-bit-to-32-bit mixing function) as an explicit function parameter `h`,
  truncated to 32 bits at each use site just as the C casts the result.
* The C expression `(1 << hsz) - 1` with `hsz = 32` is implementation
  defined; it is modelled by the mathematical value `2 ^ hsz - 1`, which is
  what the surrounding code evidently intends (the mask of `hsz` one-bits).
-/

namespace Permuteseq

/-- The three error conditions signalled by `ereport(ERROR, ...)` in
permuteseq.c: sequence/range too small, value outside the interval, and the
cycle-walking iteration cap being exceeded. -/
inductive CipherError where
  | RangeTooSmall : CipherError
  | ValueOutOfRange : CipherError
  | CycleLimitExceeded : CipherError
deriving DecidableEq, Repr

/-- `PG_INT64_MIN`. -/
def INT64_MIN : Int := -(2 ^ 63)

/-- `PG_INT64_MAX`. -/
def INT64_MAX : Int := 2 ^ 63 - 1

/-- Two's-complement wrap of an integer into the signed 64-bit range,
modelling what a C `int64` computation produces when it overflows. -/
def wrapI64 (x : Int) : Int := (x + 2 ^ 63) % 2 ^ 64 - 2 ^ 63

/-- Reinterpretation of a (possibly wrapped) signed 64-bit computation as a
C `uint64`: the mathematical value modulo `2^64`. -/
def toU64 (x : Int) : Nat := (x % (2 ^ 64 : Int)).toNat

/-- Modelled from the spec: the Mixing Primitive (`hash_uint32` from the
PostgreSQL headers, external to this repository) is a fixed, deterministic
32-bit-to-32-bit hash function.  The whole development is parameterised by
an arbitrary such function `h`; `hash32 h` truncates its result to 32 bits
exactly where the C code casts the returned `Datum` to `uint32`. -/
def hash32 (h : Nat → Nat) (x : Nat) : Nat := h x % 2 ^ 32

/-- `const int walk_max = 1000000;` — the cycle-walking iteration cap. -/
def walk_max : Nat := 1000000

/-- `const int NR = 9;` — the number of Feistel rounds. -/
def NR : Nat := 9

/-- `check_sequence_range` from permuteseq.c: returns true iff at least 4
elements fit in the sequence, short-circuiting the cases in which
`maxv - minv` would overflow an `int64`. -/
def check_sequence_range (minv maxv : Int) : Bool :=
  if (minv > 0 ∧ maxv < INT64_MIN + minv) ∨ (minv < 0 ∧ maxv > INT64_MAX + minv) then
    true
  else
    decide (maxv - minv ≥ 4 - 1)

/-- `check_sequence_range` with every intermediate signed computation
explicitly wrapped at 64 bits, used to state that the ideal-arithmetic
reading and the machine-arithmetic reading agree (no internal overflow). -/
def check_sequence_range_wrapped (minv maxv : Int) : Bool :=
  if (minv > 0 ∧ maxv < wrapI64 (INT64_MIN + minv)) ∨
     (minv < 0 ∧ maxv > wrapI64 (INT64_MAX + minv)) then
    true
  else
    decide (wrapI64 (maxv - minv) ≥ 4 - 1)

/-- The key scrambling step of `cycle_walking_cipher`:
`crypt_key = hash_uint32(crypt_key & 0xffffffff) |
             ((uint64)hash_uint32((crypt_key >> 32) & 0xffffffff)) << 32`. -/
def scramble_key (h : Nat → Nat) (key : Nat) : Nat :=
  hash32 h (key &&& 0xffffffff) ||| (hash32 h ((key >>> 32) &&& 0xffffffff)) <<< 32

/-- The round subkey `Ki` of `cycle_walking_cipher`:
`Ki = crypt_key >> ((hsz * j) & 0x3f)` truncated to `uint32`, then
`Ki += j`, where `j = i` when encrypting (`direction = 0`) and
`j = NR-1-i` when decrypting. -/
def subkey (key hsz direction i : Nat) : Nat :=
  ((key >>> ((hsz * (if direction == 0 then i else NR - 1 - i)) &&& 0x3f)) % 2 ^ 32
    + (if direction == 0 then i else NR - 1 - i)) % 2 ^ 32

/-- One Feistel round with an explicit subkey value `K`:
`l2 = r1; r2 = (l1 ^ hash(r1) ^ hash(Ki)) & mask; l1 = l2; r1 = r2`,
i.e. `(l, r) ↦ (r, (l ^ hash(r) ^ hash(K)) & mask)`. -/
def roundK (h : Nat → Nat) (mask K : Nat) (s : Nat × Nat) : Nat × Nat :=
  (s.2, (s.1 ^^^ hash32 h s.2 ^^^ hash32 h K) &&& mask)

/-- The round of the `for (i = 0; i < NR; i++)` loop, with the subkey
derived from the round index and direction as in the source. -/
def feistelRound (h : Nat → Nat) (key hsz mask direction i : Nat)
    (s : Nat × Nat) : Nat × Nat :=
  roundK h mask (subkey key hsz direction i) s

/-- The full `for` loop of one walking attempt: `NR` Feistel rounds carrying
the half-block pair across rounds. -/
def feistelRounds (h : Nat → Nat) (key hsz mask direction : Nat)
    (s : Nat × Nat) : Nat × Nat :=
  (List.range NR).foldl (fun t i => feistelRound h key hsz mask direction i t) s

/-- Reassembly of the two half blocks:
`result = ((uint64)r1 << hsz) | l1`. -/
def assemble (hsz : Nat) (s : Nat × Nat) : Nat := (s.2 <<< hsz) ||| s.1

/-- The `result` produced by one walking attempt started from state `s`. -/
def attemptResult (h : Nat → Nat) (key hsz mask direction : Nat)
    (s : Nat × Nat) : Nat :=
  assemble hsz (feistelRounds h key hsz mask direction s)

/-- The state fed into the next walking attempt: the source swaps the two
halves once more after the rounds (`l1 = r2; r1 = l2`), which amounts to
swapping the final pair. -/
def pairStep (h : Nat → Nat) (key hsz mask direction : Nat)
    (s : Nat × Nat) : Nat × Nat :=
  ((feistelRounds h key hsz mask direction s).2,
   (feistelRounds h key hsz mask direction s).1)

/-- The `do { ... } while` cycle-walking loop.  Tracing `walk_count` in the
source: a result is returned iff some attempt `k` with `1 ≤ k ≤ walk_max`
lands at `result ≤ bound` (`bound` is `(uint64)(maxval - minval)`); the
first such result is returned, and otherwise the loop errors out.  The
fuel argument counts the attempts still permitted. -/
def walkLoop (h : Nat → Nat) (key hsz mask direction bound : Nat) :
    Nat → Nat × Nat → Option Nat
  | 0, _ => none
  | fuel + 1, s =>
    if attemptResult h key hsz mask direction s ≤ bound then
      some (attemptResult h key hsz mask direction s)
    else
      walkLoop h key hsz mask direction bound fuel (pairStep h key hsz mask direction s)

/-- The `while (hsz < 32 && ((uint64)1 << (2*hsz)) < interval) hsz++;` loop.
Starting from `hsz = 1` it performs at most 31 iterations, so fuel 31 makes
the recursion structural without changing the result. -/
def hszLoop (intv : Nat) : Nat → Nat → Nat
  | 0, hsz => hsz
  | fuel + 1, hsz =>
    if hsz < 32 ∧ 2 ^ (2 * hsz) < intv then hszLoop intv fuel (hsz + 1) else hsz

/-- The half block size computed by `cycle_walking_cipher` for a given
(already wrapped) `interval` value. -/
def hszOf (intv : Nat) : Nat := hszLoop intv 31 1

/-- `uint64 interval = maxval - minval + 1;` — computed in `int64`
arithmetic (wrapping on overflow) and converted to `uint64`. -/
def cipherIntv (minval maxval : Int) : Nat := toU64 (maxval - minval + 1)

/-- The half block size of one cipher invocation. -/
def cipherHsz (minval maxval : Int) : Nat := hszOf (cipherIntv minval maxval)

/-- `mask = (1 << hsz) - 1;` (see the header note on `hsz = 32`). -/
def cipherMask (minval maxval : Int) : Nat := 2 ^ cipherHsz minval maxval - 1

/-- The initial half blocks:
`l1 = (value - minval) >> hsz; r1 = (value - minval) & mask;`.
`d` is the offset `value - minval` reinterpreted as `uint64`; the `int64`
arithmetic right shift followed by the `uint32` truncation of the C code
equals `(d >>> hsz) % 2^32` for every `d < 2^64` and `hsz ≤ 32`, and the
`&` with the `uint32` mask equals `d &&& mask`. -/
def initState (d hsz mask : Nat) : Nat × Nat := ((d >>> hsz) % 2 ^ 32, d &&& mask)

/-- `cycle_walking_cipher` from permuteseq.c (direction 0 encrypts,
1 decrypts), returning `minval + result` on success and the
`CycleLimitExceeded` error if the walk does not land inside the interval
within `walk_max` attempts. -/
def cycle_walking_cipher (h : Nat → Nat) (minval maxval value : Int)
    (crypt_key : Nat) (direction : Nat) : Except CipherError Int :=
  match walkLoop h (scramble_key h crypt_key) (cipherHsz minval maxval)
      (cipherMask minval maxval) direction (toU64 (maxval - minval)) walk_max
      (initState (toU64 (value - minval)) (cipherHsz minval maxval)
        (cipherMask minval maxval)) with
  | some result => Except.ok (minval + (result : Int))
  | none => Except.error CipherError.CycleLimitExceeded

/-- `range_encrypt_element(clearval, minval, maxval, crypt_key)`: bounds
check on the value, then the cipher in the encrypt direction.  No
range-size check is performed by this entry point. -/
def range_encrypt_element (h : Nat → Nat) (clearval minval maxval : Int)
    (crypt_key : Nat) : Except CipherError Int :=
  if clearval < minval ∨ clearval > maxval then
    Except.error CipherError.ValueOutOfRange
  else
    cycle_walking_cipher h minval maxval clearval crypt_key 0

/-- `range_decrypt_element(val, minval, maxval, crypt_key)`: bounds check on
the value, then the cipher in the decrypt direction. -/
def range_decrypt_element (h : Nat → Nat) (val minval maxval : Int)
    (crypt_key : Nat) : Except CipherError Int :=
  if val < minval ∨ val > maxval then
    Except.error CipherError.ValueOutOfRange
  else
    cycle_walking_cipher h minval maxval val crypt_key 1

/-- `permute_nextval(seq_oid, crypt_key)`.  Modelled from the spec: the
PostgreSQL sequence collaborator (OID lookup, `pg_sequence_parameters`,
`nextval_oid`) is external to this repository and is represented by passing
its outputs `minval`, `maxval` and `nextval` directly.  The function checks
the sequence range with `check_sequence_range`, checks that `nextval` lies
inside the interval, and encrypts it. -/
def permute_nextval (h : Nat → Nat) (minval maxval nextval : Int)
    (crypt_key : Nat) : Except CipherError Int :=
  if ¬ check_sequence_range minval maxval then
    Except.error CipherError.RangeTooSmall
  else if nextval < minval ∨ nextval > maxval then
    Except.error CipherError.ValueOutOfRange
  else
    cycle_walking_cipher h minval maxval nextval crypt_key 0

/-- `reverse_permute(seq_oid, value, crypt_key)`.  Modelled from the spec:
the sequence collaborator supplies `minval` and `maxval`.  The source
checks `maxval - minval < 4` directly — a plain `int64` subtraction with no
overflow protection, modelled by the explicit two's-complement wrap. -/
def reverse_permute (h : Nat → Nat) (minval maxval value : Int)
    (crypt_key : Nat) : Except CipherError Int :=
  if wrapI64 (maxval - minval) < 4 then
    Except.error CipherError.RangeTooSmall
  else if value < minval ∨ value > maxval then
    Except.error CipherError.ValueOutOfRange
  else
    cycle_walking_cipher h minval maxval value crypt_key 1

/-- The result of the `k`-th walking attempt (`k ≥ 1`) along the walk
started from state `s`. -/
def walkRes (h : Nat → Nat) (key hsz mask direction : Nat) (s : Nat × Nat)
    (k : Nat) : Nat :=
  attemptResult h key hsz mask direction
    ((pairStep h key hsz mask direction)^[k - 1] s)

/-- The walk as a function on reassembled values: one attempt applied to the
value whose high half feeds `l` and low half feeds `r`, as the cipher does
with the initial offset. -/
def numStep (h : Nat → Nat) (key hsz mask direction : Nat) (x : Nat) : Nat :=
  attemptResult h key hsz mask direction (x >>> hsz, x &&& mask)

/-- The `k`-th Feistel result along the walk of one `cycle_walking_cipher`
invocation. -/
def cipherRes (h : Nat → Nat) (minval maxval value : Int) (crypt_key : Nat)
    (direction k : Nat) : Nat :=
  walkRes h (scramble_key h crypt_key) (cipherHsz minval maxval)
    (cipherMask minval maxval) direction
    (initState (toU64 (value - minval)) (cipherHsz minval maxval)
      (cipherMask minval maxval)) k

/-- Following the spec's words (for comparison with `subkey`): a sliding,
wrapping window of `hsz` bits of the scrambled 64-bit key starting at bit
offset `(hsz * j) mod 64`, plus the subkey index `j` added in. -/
def subkeySpecWindow (key hsz j : Nat) : Nat :=
  (((key >>> ((hsz * j) % 64)) ||| (key <<< (64 - (hsz * j) % 64))) % 2 ^ 64 % 2 ^ hsz
    + j) % 2 ^ 32

/-- A concrete instance of the mixing primitive used for closed evaluations
(any pure function works; this one mixes enough for short walks). -/
def hTest : Nat → Nat := fun x => (x * 2654435761 + 104729) % 2 ^ 32

/-- A Feistel pass with an explicit list of round-subkey values, one round
per list element; `feistelRounds` is `passKeys` applied to the subkeys in
the order the round loop derives them. -/
def passKeys (h : Nat → Nat) (mask : Nat) (ks : List Nat) (s : Nat × Nat) :
    Nat × Nat :=
  ks.foldl (fun t K => roundK h mask K t) s

/-! ### Bit-level helper lemmas -/

lemma and_mask_and (a m : Nat) : (a &&& m) &&& m = a &&& m := by
  rw [Nat.and_assoc, Nat.and_self]

lemma and_xor_mask (a b m : Nat) : ((a &&& m) ^^^ b) &&& m = (a ^^^ b) &&& m := by
  rw [Nat.and_xor_distrib_right, and_mask_and, ← Nat.and_xor_distrib_right]

lemma and_mask_lt {n : Nat} (a : Nat) : a &&& (2 ^ n - 1) < 2 ^ n :=
  lt_of_le_of_lt Nat.and_le_right (Nat.sub_lt (Nat.pos_pow_of_pos n (by norm_num)) one_pos)

lemma shiftRight_lt {x n : Nat} (hx : x < 2 ^ (2 * n)) : x >>> n < 2 ^ n := by
  rw [Nat.shiftRight_eq_div_pow]
  rw [two_mul, pow_add] at hx
  exact Nat.div_lt_of_lt_mul (by linarith [hx])

lemma or_shiftRight (x y n : Nat) : (x ||| y) >>> n = x >>> n ||| y >>> n := by
  apply Nat.eq_of_testBit_eq
  intro i
  simp

lemma shiftLeft_shiftRight_self (r n : Nat) : (r <<< n) >>> n = r := by
  rw [Nat.shiftLeft_eq, Nat.shiftRight_eq_div_pow]
  exact Nat.mul_div_cancel _ (Nat.pos_pow_of_pos _ (by norm_num))

lemma small_shiftRight {l n : Nat} (hl : l < 2 ^ n) : l >>> n = 0 := by
  rw [Nat.shiftRight_eq_div_pow]
  exact Nat.div_eq_of_lt hl

lemma assemble_hi {hsz l r : Nat} (hl : l < 2 ^ hsz) :
    assemble hsz (l, r) >>> hsz = r := by
  rw [assemble, or_shiftRight, shiftLeft_shiftRight_self, small_shiftRight hl,
    Nat.or_zero]

lemma assemble_lo {hsz l r : Nat} (hl : l < 2 ^ hsz) :
    assemble hsz (l, r) &&& (2 ^ hsz - 1) = l := by
  rw [assemble, Nat.and_distrib_right, Nat.and_pow_two_sub_one_eq_mod,
    Nat.and_pow_two_sub_one_eq_mod, Nat.shiftLeft_eq, Nat.mul_mod_left,
    Nat.mod_eq_of_lt hl]
  simp

lemma assemble_eq_add {hsz l r : Nat} (hl : l < 2 ^ hsz) :
    assemble hsz (l, r) = 2 ^ hsz * r + l := by
  have hdm := Nat.div_add_mod (assemble hsz (l, r)) (2 ^ hsz)
  rw [← Nat.shiftRight_eq_div_pow, assemble_hi hl] at hdm
  rw [← Nat.and_pow_two_sub_one_eq_mod, assemble_lo hl] at hdm
  omega

lemma assemble_lt {hsz l r : Nat} (hl : l < 2 ^ hsz) (hr : r < 2 ^ hsz) :
    assemble hsz (l, r) < 2 ^ (2 * hsz) := by
  rw [assemble_eq_add hl, two_mul, pow_add]
  calc 2 ^ hsz * r + l < 2 ^ hsz * r + 2 ^ hsz := by omega
    _ = 2 ^ hsz * (r + 1) := by ring
    _ ≤ 2 ^ hsz * 2 ^ hsz := Nat.mul_le_mul_left _ hr

/-! ### One-round and whole-pass inversion -/

lemma xor_cancel_mask (a x y m : Nat) :
    ((a ^^^ x ^^^ y) &&& m ^^^ x ^^^ y) &&& m = a &&& m := by
  rw [Nat.xor_assoc ((a ^^^ x ^^^ y) &&& m), and_xor_mask, Nat.xor_assoc a x y,
    Nat.xor_assoc a (x ^^^ y), Nat.xor_self, Nat.xor_zero]

lemma roundK_cancel (h : Nat → Nat) {hsz : Nat} (K : Nat) {s : Nat × Nat}
    (h1 : s.1 < 2 ^ hsz) :
    roundK h (2 ^ hsz - 1) K
      ((roundK h (2 ^ hsz - 1) K s).2, (roundK h (2 ^ hsz - 1) K s).1) =
    (s.2, s.1) := by
  obtain ⟨a, b⟩ := s
  simp only [roundK]
  refine Prod.ext rfl ?_
  simp only
  rw [xor_cancel_mask]
  exact Nat.and_pow_two_sub_one_of_lt_two_pow h1

lemma passKeys_nil (h : Nat → Nat) (mask : Nat) (s : Nat × Nat) :
    passKeys h mask [] s = s := rfl

lemma passKeys_cons (h : Nat → Nat) (mask K : Nat) (ks : List Nat) (s : Nat × Nat) :
    passKeys h mask (K :: ks) s = passKeys h mask ks (roundK h mask K s) := rfl

lemma passKeys_append (h : Nat → Nat) (mask : Nat) (ks1 ks2 : List Nat)
    (s : Nat × Nat) :
    passKeys h mask (ks1 ++ ks2) s = passKeys h mask ks2 (passKeys h mask ks1 s) :=
  List.foldl_append _ _ _ _

lemma passKeys_masked (h : Nat → Nat) {hsz : Nat} (ks : List Nat) :
    ∀ s : Nat × Nat, s.1 < 2 ^ hsz → s.2 < 2 ^ hsz →
      (passKeys h (2 ^ hsz - 1) ks s).1 < 2 ^ hsz ∧
      (passKeys h (2 ^ hsz - 1) ks s).2 < 2 ^ hsz := by
  induction ks with
  | nil => exact fun s h1 h2 => ⟨h1, h2⟩
  | cons K ks ih =>
    intro s h1 h2
    rw [passKeys_cons]
    exact ih _ h2 (and_mask_lt _)

lemma passKeys_rev_cancel (h : Nat → Nat) {hsz : Nat} :
    ∀ (ks : List Nat) (s : Nat × Nat), s.1 < 2 ^ hsz → s.2 < 2 ^ hsz →
      passKeys h (2 ^ hsz - 1) ks.reverse
        ((passKeys h (2 ^ hsz - 1) ks s).2, (passKeys h (2 ^ hsz - 1) ks s).1) =
      (s.2, s.1) := by
  intro ks
  induction ks with
  | nil => exact fun s _ _ => rfl
  | cons K ks ih =>
    intro s h1 h2
    simp only [List.reverse_cons, passKeys_append, passKeys_cons, passKeys_nil]
    rw [ih (roundK h (2 ^ hsz - 1) K s) h2 (and_mask_lt _)]
    exact roundK_cancel h K h1

lemma feistelRounds_eq_passKeys (h : Nat → Nat) (key hsz mask direction : Nat)
    (s : Nat × Nat) :
    feistelRounds h key hsz mask direction s =
      passKeys h mask ((List.range NR).map (subkey key hsz direction)) s := by
  rw [feistelRounds, passKeys, List.foldl_map]
  rfl

lemma subkeys_reverse (key hsz : Nat) :
    (List.range NR).map (subkey key hsz 1) =
      ((List.range NR).map (subkey key hsz 0)).reverse := by
  rfl

lemma feistelRounds_masked (h : Nat → Nat) (key hsz direction : Nat)
    {s : Nat × Nat} (h1 : s.1 < 2 ^ hsz) (h2 : s.2 < 2 ^ hsz) :
    (feistelRounds h key hsz (2 ^ hsz - 1) direction s).1 < 2 ^ hsz ∧
    (feistelRounds h key hsz (2 ^ hsz - 1) direction s).2 < 2 ^ hsz := by
  rw [feistelRounds_eq_passKeys]
  exact passKeys_masked h _ s h1 h2

lemma feistelRounds_inv (h : Nat → Nat) (key hsz : Nat) {s : Nat × Nat}
    (h1 : s.1 < 2 ^ hsz) (h2 : s.2 < 2 ^ hsz) :
    feistelRounds h key hsz (2 ^ hsz - 1) 1
      ((feistelRounds h key hsz (2 ^ hsz - 1) 0 s).2,
       (feistelRounds h key hsz (2 ^ hsz - 1) 0 s).1) = (s.2, s.1) := by
  rw [feistelRounds_eq_passKeys, feistelRounds_eq_passKeys, subkeys_reverse]
  exact passKeys_rev_cancel h _ s h1 h2

/-! ### The walk as a function on reassembled values -/

lemma split_fst_lt {x hsz : Nat} (hx : x < 2 ^ (2 * hsz)) :
    (x >>> hsz, x &&& (2 ^ hsz - 1)).1 < 2 ^ hsz := shiftRight_lt hx

lemma split_snd_lt (x hsz : Nat) :
    (x >>> hsz, x &&& (2 ^ hsz - 1)).2 < 2 ^ hsz := and_mask_lt x

lemma numStep_lt (h : Nat → Nat) (key hsz direction : Nat) {x : Nat}
    (hx : x < 2 ^ (2 * hsz)) :
    numStep h key hsz (2 ^ hsz - 1) direction x < 2 ^ (2 * hsz) := by
  obtain ⟨m1, m2⟩ :=
    feistelRounds_masked h key hsz direction (split_fst_lt hx) (split_snd_lt x hsz)
  exact assemble_lt m1 m2

lemma pairStep_split (h : Nat → Nat) (key hsz direction : Nat) {x : Nat}
    (hx : x < 2 ^ (2 * hsz)) :
    pairStep h key hsz (2 ^ hsz - 1) direction (x >>> hsz, x &&& (2 ^ hsz - 1)) =
      (numStep h key hsz (2 ^ hsz - 1) direction x >>> hsz,
       numStep h key hsz (2 ^ hsz - 1) direction x &&& (2 ^ hsz - 1)) := by
  obtain ⟨m1, m2⟩ :=
    feistelRounds_masked h key hsz direction (split_fst_lt hx) (split_snd_lt x hsz)
  rw [pairStep]
  rw [numStep, attemptResult]
  rw [assemble_hi m1, assemble_lo m1]

lemma numStep_inv (h : Nat → Nat) (key hsz : Nat) {x : Nat}
    (hx : x < 2 ^ (2 * hsz)) :
    numStep h key hsz (2 ^ hsz - 1) 1 (numStep h key hsz (2 ^ hsz - 1) 0 x) = x := by
  obtain ⟨m1, m2⟩ :=
    feistelRounds_masked h key hsz 0 (split_fst_lt hx) (split_snd_lt x hsz)
  rw [numStep, numStep, attemptResult, attemptResult, assemble_hi m1, assemble_lo m1,
    feistelRounds_inv h key hsz (split_fst_lt hx) (split_snd_lt x hsz)]
  rw [assemble_eq_add (split_snd_lt x hsz)]
  simp only
  rw [Nat.shiftRight_eq_div_pow, Nat.and_pow_two_sub_one_eq_mod]
  exact Nat.div_add_mod x (2 ^ hsz)

lemma numStep_iterate_lt (h : Nat → Nat) (key hsz direction : Nat) {x : Nat}
    (hx : x < 2 ^ (2 * hsz)) (k : Nat) :
    (numStep h key hsz (2 ^ hsz - 1) direction)^[k] x < 2 ^ (2 * hsz) := by
  induction k generalizing x with
  | zero => exact hx
  | succ k ih =>
    rw [Function.iterate_succ_apply]
    exact ih (numStep_lt h key hsz direction hx)

lemma numStep_iterate_inv (h : Nat → Nat) (key hsz : Nat) {x : Nat}
    (hx : x < 2 ^ (2 * hsz)) (k : Nat) :
    (numStep h key hsz (2 ^ hsz - 1) 1)^[k]
      ((numStep h key hsz (2 ^ hsz - 1) 0)^[k] x) = x := by
  induction k generalizing x with
  | zero => rfl
  | succ k ih =>
    rw [Function.iterate_succ_apply, Function.iterate_succ_apply']
    rw [numStep_inv h key hsz (numStep_iterate_lt h key hsz 0 hx k)]
    exact ih hx

lemma numStep_iterate_back (h : Nat → Nat) (key hsz : Nat) {x : Nat}
    (hx : x < 2 ^ (2 * hsz)) {j m : Nat} (hj : j ≤ m) :
    (numStep h key hsz (2 ^ hsz - 1) 1)^[j]
      ((numStep h key hsz (2 ^ hsz - 1) 0)^[m] x) =
      (numStep h key hsz (2 ^ hsz - 1) 0)^[m - j] x := by
  have hm : m = j + (m - j) := by omega
  conv_lhs => rw [hm, Function.iterate_add_apply]
  exact numStep_iterate_inv h key hsz (numStep_iterate_lt h key hsz 0 hx (m - j)) j

/-! ### Characterisation of the cycle-walking loop -/

lemma walkRes_one (h : Nat → Nat) (key hsz mask direction : Nat) (s : Nat × Nat) :
    walkRes h key hsz mask direction s 1 =
      attemptResult h key hsz mask direction s := rfl

lemma walkRes_succ (h : Nat → Nat) (key hsz mask direction : Nat) (s : Nat × Nat)
    {k : Nat} (hk : 1 ≤ k) :
    walkRes h key hsz mask direction s (k + 1) =
      walkRes h key hsz mask direction (pairStep h key hsz mask direction s) k := by
  rw [walkRes, walkRes, Nat.add_sub_cancel]
  have : k - 1 + 1 = k := by omega
  rw [← this, Function.iterate_succ_apply, this]

lemma walkLoop_some_iff (h : Nat → Nat) (key hsz mask direction bound : Nat) :
    ∀ (fuel : Nat) (s : Nat × Nat) (r : Nat),
      walkLoop h key hsz mask direction bound fuel s = some r ↔
      ∃ m, 1 ≤ m ∧ m ≤ fuel ∧ walkRes h key hsz mask direction s m ≤ bound ∧
        (∀ j, 1 ≤ j → j < m → bound < walkRes h key hsz mask direction s j) ∧
        r = walkRes h key hsz mask direction s m := by
  intro fuel
  induction fuel with
  | zero =>
    intro s r
    simp only [walkLoop]
    constructor
    · intro hc
      exact absurd hc (by simp)
    · rintro ⟨m, h1, h2, -⟩
      omega
  | succ fuel ih =>
    intro s r
    rw [walkLoop]
    by_cases hc : attemptResult h key hsz mask direction s ≤ bound
    · rw [if_pos hc]
      constructor
      · intro hr
        refine ⟨1, le_refl 1, by omega, ?_, by omega, ?_⟩
        · rw [walkRes_one]; exact hc
        · rw [walkRes_one]; exact (Option.some_inj.mp hr).symm
      · rintro ⟨m, h1, h2, h3, h4, h5⟩
        rcases Nat.eq_or_lt_of_le h1 with h1e | h1l
        · rw [h5, ← h1e, walkRes_one]
        · exact absurd (h4 1 (le_refl 1) h1l) (by rw [walkRes_one]; omega)
    · rw [if_neg hc]
      rw [ih (pairStep h key hsz mask direction s) r]
      constructor
      · rintro ⟨m, h1, h2, h3, h4, h5⟩
        refine ⟨m + 1, by omega, by omega, ?_, ?_, ?_⟩
        · rw [walkRes_succ h key hsz mask direction s h1]; exact h3
        · intro j hj1 hjm
          rcases Nat.eq_or_lt_of_le hj1 with hj | hj
          · rw [← hj, walkRes_one]; omega
          · have hj2 : j - 1 + 1 = j := by omega
            rw [← hj2, walkRes_succ h key hsz mask direction s (by omega)]
            exact h4 (j - 1) (by omega) (by omega)
        · rw [walkRes_succ h key hsz mask direction s h1]; exact h5
      · rintro ⟨m, h1, h2, h3, h4, h5⟩
        have hm1 : 1 < m := by
          rcases Nat.eq_or_lt_of_le h1 with hm | hm
          · exfalso; rw [← hm, walkRes_one] at h3; omega
          · exact hm
        have hm2 : m - 1 + 1 = m := by omega
        refine ⟨m - 1, by omega, by omega, ?_, ?_, ?_⟩
        · rw [← walkRes_succ h key hsz mask direction s (by omega), hm2]; exact h3
        · intro j hj1 hjm
          rw [← walkRes_succ h key hsz mask direction s hj1]
          exact h4 (j + 1) (by omega) (by omega)
        · rw [← walkRes_succ h key hsz mask direction s (by omega), hm2]; exact h5

lemma walkLoop_none_iff (h : Nat → Nat) (key hsz mask direction bound : Nat) :
    ∀ (fuel : Nat) (s : Nat × Nat),
      walkLoop h key hsz mask direction bound fuel s = none ↔
      ∀ j, 1 ≤ j → j ≤ fuel → bound < walkRes h key hsz mask direction s j := by
  intro fuel
  induction fuel with
  | zero =>
    intro s
    simp only [walkLoop]
    constructor
    · intro _ j hj1 hj0
      omega
    · intro _
      trivial
  | succ fuel ih =>
    intro s
    rw [walkLoop]
    by_cases hc : attemptResult h key hsz mask direction s ≤ bound
    · rw [if_pos hc]
      constructor
      · intro hcon
        exact absurd hcon (by simp)
      · intro hall
        have := hall 1 (le_refl 1) (by omega)
        rw [walkRes_one] at this
        omega
    · rw [if_neg hc]
      rw [ih (pairStep h key hsz mask direction s)]
      constructor
      · intro hall j hj1 hjf
        rcases Nat.eq_or_lt_of_le hj1 with hj | hj
        · rw [← hj, walkRes_one]; omega
        · have hj2 : j - 1 + 1 = j := by omega
          rw [← hj2, walkRes_succ h key hsz mask direction s (by omega)]
          exact hall (j - 1) (by omega) (by omega)
      · intro hall j hj1 hjf
        rw [← walkRes_succ h key hsz mask direction s hj1]
        exact hall (j + 1) (by omega) (by omega)

lemma walkRes_numStep (h : Nat → Nat) (key hsz direction : Nat) :
    ∀ (k : Nat), 1 ≤ k → ∀ (x : Nat), x < 2 ^ (2 * hsz) →
      walkRes h key hsz (2 ^ hsz - 1) direction (x >>> hsz, x &&& (2 ^ hsz - 1)) k =
        (numStep h key hsz (2 ^ hsz - 1) direction)^[k] x := by
  intro k
  induction k with
  | zero => omega
  | succ k ih =>
    intro _ x hx
    rcases Nat.eq_zero_or_pos k with hk | hk
    · subst hk
      rw [walkRes_one, Function.iterate_one]
      rfl
    · rw [walkRes_succ h key hsz (2 ^ hsz - 1) direction _ hk,
        pairStep_split h key hsz direction hx,
        ih hk (numStep h key hsz (2 ^ hsz - 1) direction x)
          (numStep_lt h key hsz direction hx),
        Function.iterate_succ_apply]

/-! ### Specification of the half-block-size loop -/

lemma hszLoop_ge (intv : Nat) :
    ∀ (fuel h0 : Nat), h0 ≤ hszLoop intv fuel h0 := by
  intro fuel
  induction fuel with
  | zero => intro h0; exact le_refl h0
  | succ fuel ih =>
    intro h0
    rw [hszLoop]
    split
    · exact le_trans (Nat.le_succ h0) (ih (h0 + 1))
    · exact le_refl h0

lemma hszLoop_le (intv : Nat) :
    ∀ (fuel h0 : Nat), h0 ≤ 32 → hszLoop intv fuel h0 ≤ 32 := by
  intro fuel
  induction fuel with
  | zero => intro h0 hh; exact hh
  | succ fuel ih =>
    intro h0 hh
    rw [hszLoop]
    split
    · rename_i hcond
      exact ih (h0 + 1) hcond.1
    · exact hh

lemma hszLoop_big (intv : Nat) :
    ∀ (fuel h0 : Nat), fuel + h0 = 32 → intv < 2 ^ 64 →
      intv ≤ 2 ^ (2 * hszLoop intv fuel h0) := by
  intro fuel
  induction fuel with
  | zero =>
    intro h0 hsum hlt
    rw [hszLoop]
    have : h0 = 32 := by omega
    subst this
    exact le_of_lt hlt
  | succ fuel ih =>
    intro h0 hsum hlt
    rw [hszLoop]
    split
    · exact ih (h0 + 1) (by omega) hlt
    · rename_i hcond
      have hlt32 : h0 < 32 := by omega
      push_neg at hcond
      exact hcond hlt32

lemma hszLoop_min (intv : Nat) :
    ∀ (fuel h0 k : Nat), h0 ≤ k → k < hszLoop intv fuel h0 → 2 ^ (2 * k) < intv := by
  intro fuel
  induction fuel with
  | zero =>
    intro h0 k hk1 hk2
    rw [hszLoop] at hk2
    omega
  | succ fuel ih =>
    intro h0 k hk1 hk2
    rw [hszLoop] at hk2
    by_cases hcond : h0 < 32 ∧ 2 ^ (2 * h0) < intv
    · rw [if_pos hcond] at hk2
      rcases Nat.eq_or_lt_of_le hk1 with hk | hk
      · rw [← hk]; exact hcond.2
      · exact ih (h0 + 1) k hk hk2
    · rw [if_neg hcond] at hk2
      omega

lemma hszOf_pos (intv : Nat) : 1 ≤ hszOf intv := hszLoop_ge intv 31 1

lemma hszOf_le (intv : Nat) : hszOf intv ≤ 32 := hszLoop_le intv 31 1 (by omega)

lemma hszOf_big {intv : Nat} (hlt : intv < 2 ^ 64) : intv ≤ 2 ^ (2 * hszOf intv) :=
  hszLoop_big intv 31 1 (by omega) hlt

lemma hszOf_min (intv : Nat) {k : Nat} (hk1 : 1 ≤ k) (hk2 : k < hszOf intv) :
    2 ^ (2 * k) < intv := hszLoop_min intv 31 1 k hk1 hk2

lemma hszOf_tight {intv : Nat} (h2 : 2 ≤ intv) :
    2 ^ (2 * hszOf intv) < 4 * intv := by
  rcases Nat.eq_or_lt_of_le (hszOf_pos intv) with h1 | h1
  · rw [← h1]
    omega
  · have hmin := hszOf_min intv (k := hszOf intv - 1) (by omega) (by omega)
    have : 2 * hszOf intv = 2 * (hszOf intv - 1) + 2 := by omega
    rw [this, pow_add]
    omega

/-! ### Integer reinterpretation bridges -/

lemma toU64_small {x : Int} (h0 : 0 ≤ x) (h1 : x < 2 ^ 64) : (toU64 x : Int) = x := by
  rw [toU64, Int.emod_eq_of_lt h0 h1, Int.toNat_of_nonneg h0]

lemma toU64_small_toNat {x : Int} (h0 : 0 ≤ x) (h1 : x < 2 ^ 64) :
    toU64 x = x.toNat := by
  rw [toU64, Int.emod_eq_of_lt h0 h1]

lemma wrapI64_small {x : Int} (h0 : -(2 ^ 63) ≤ x) (h1 : x ≤ 2 ^ 63 - 1) :
    wrapI64 x = x := by
  rw [wrapI64, Int.emod_eq_of_lt (by omega) (by omega)]
  omega

lemma wrapI64_id {x : Int} (h0 : INT64_MIN ≤ x) (h1 : x ≤ INT64_MAX) :
    wrapI64 x = x :=
  wrapI64_small h0 h1

lemma initState_split {d hsz : Nat} (mask : Nat) (hd : d < 2 ^ (2 * hsz))
    (hh : hsz ≤ 32) : initState d hsz mask = (d >>> hsz, d &&& mask) := by
  rw [initState]
  have h1 : d >>> hsz < 2 ^ hsz := shiftRight_lt hd
  have h2 : (2 : Nat) ^ hsz ≤ 2 ^ 32 := Nat.pow_le_pow_right (by omega) hh
  rw [Nat.mod_eq_of_lt (by omega)]

/-! ### Characterisation of the whole cipher on representable intervals -/

lemma cycle_not_error_small (h : Nat → Nat) (minval maxval v : Int)
    (key direction : Nat) :
    cycle_walking_cipher h minval maxval v key direction ≠
        Except.error CipherError.RangeTooSmall ∧
    cycle_walking_cipher h minval maxval v key direction ≠
        Except.error CipherError.ValueOutOfRange := by
  rw [cycle_walking_cipher]
  cases hw : walkLoop h (scramble_key h key) (cipherHsz minval maxval)
      (cipherMask minval maxval) direction (toU64 (maxval - minval)) walk_max
      (initState (toU64 (v - minval)) (cipherHsz minval maxval)
        (cipherMask minval maxval)) with
  | none => simp
  | some res => simp

lemma cycle_char (h : Nat → Nat) {minval maxval : Int} (v : Int)
    (key direction : Nat)
    (hmm : minval ≤ maxval) (hbig : maxval - minval ≤ 2 ^ 64 - 2)
    (h5 : minval ≤ v) (h6 : v ≤ maxval) (r : Int) :
    cycle_walking_cipher h minval maxval v key direction = Except.ok r ↔
    ∃ m, 1 ≤ m ∧ m ≤ walk_max ∧
      (numStep h (scramble_key h key) (cipherHsz minval maxval)
          (cipherMask minval maxval) direction)^[m] (v - minval).toNat ≤
        (maxval - minval).toNat ∧
      (∀ j, 1 ≤ j → j < m →
        (maxval - minval).toNat <
          (numStep h (scramble_key h key) (cipherHsz minval maxval)
            (cipherMask minval maxval) direction)^[j] (v - minval).toNat) ∧
      r = minval + ((numStep h (scramble_key h key) (cipherHsz minval maxval)
          (cipherMask minval maxval) direction)^[m] (v - minval).toNat : Int) := by
  have hintv : cipherIntv minval maxval = (maxval - minval).toNat + 1 := by
    rw [cipherIntv, toU64_small_toNat (by omega) (by omega)]
    omega
  have hdom : (maxval - minval).toNat + 1 ≤ 2 ^ (2 * cipherHsz minval maxval) := by
    rw [cipherHsz, hintv] at *
    exact hszOf_big (by omega)
  have hd : toU64 (v - minval) = (v - minval).toNat :=
    toU64_small_toNat (by omega) (by omega)
  have hdle : (v - minval).toNat ≤ (maxval - minval).toNat := by omega
  have hdlt : (v - minval).toNat < 2 ^ (2 * cipherHsz minval maxval) := by omega
  have hbound : toU64 (maxval - minval) = (maxval - minval).toNat :=
    toU64_small_toNat (by omega) (by omega)
  have hmask : cipherMask minval maxval = 2 ^ cipherHsz minval maxval - 1 := rfl
  rw [cycle_walking_cipher, hd, hbound,
    hmask, initState_split _ hdlt (hszOf_le _)]
  cases hw : walkLoop h (scramble_key h key) (cipherHsz minval maxval)
      (2 ^ cipherHsz minval maxval - 1) direction ((maxval - minval).toNat) walk_max
      ((v - minval).toNat >>> cipherHsz minval maxval,
       (v - minval).toNat &&& (2 ^ cipherHsz minval maxval - 1)) with
  | some res =>
    rw [walkLoop_some_iff] at hw
    obtain ⟨m, hm1, hm2, hm3, hm4, hm5⟩ := hw
    rw [walkRes_numStep h _ _ _ m hm1 _ hdlt] at hm3 hm5
    simp only [Except.ok.injEq]
    constructor
    · intro hok
      refine ⟨m, hm1, hm2, hm3, ?_, ?_⟩
      · intro j hj1 hj2
        have := hm4 j hj1 hj2
        rw [walkRes_numStep h _ _ _ j hj1 _ hdlt] at this
        exact this
      · rw [← hok, hm5]
    · rintro ⟨m', hm'1, hm'2, hm'3, hm'4, hm'5⟩
      have hmeq : m = m' := by
        rcases lt_trichotomy m m' with hlt | heq | hgt
        · have := hm'4 m hm1 hlt
          omega
        · exact heq
        · have := hm4 m' hm'1 hgt
          rw [walkRes_numStep h _ _ _ m' hm'1 _ hdlt] at this
          omega
      rw [hm'5, ← hmeq, ← hm5]
  | none =>
    rw [walkLoop_none_iff] at hw
    simp only [reduceCtorEq, false_iff]
    rintro ⟨m, hm1, hm2, hm3, hm4, hm5⟩
    have := hw m hm1 hm2
    rw [walkRes_numStep h _ _ _ m hm1 _ hdlt] at this
    omega

lemma cipher_dom {minval maxval : Int} (hmm : minval ≤ maxval)
    (hbig : maxval - minval ≤ 2 ^ 64 - 2) {v : Int} (h5 : minval ≤ v)
    (h6 : v ≤ maxval) :
    (v - minval).toNat < 2 ^ (2 * cipherHsz minval maxval) ∧
    (maxval - minval).toNat < 2 ^ (2 * cipherHsz minval maxval) := by
  have hintv : cipherIntv minval maxval = (maxval - minval).toNat + 1 := by
    rw [cipherIntv, toU64_small_toNat (by omega) (by omega)]
    omega
  have hdom : (maxval - minval).toNat + 1 ≤ 2 ^ (2 * cipherHsz minval maxval) := by
    rw [cipherHsz, hintv] at *
    exact hszOf_big (by omega)
  omega

/-- Unconditionally, the reassembled result of one walking attempt lies
below `2 ^ (2*hsz)`: with at least two rounds both final halves are masked
to `hsz` bits whatever the input state was. -/
lemma attemptResult_lt (h : Nat → Nat) (key hsz direction : Nat) (s : Nat × Nat) :
    attemptResult h key hsz (2 ^ hsz - 1) direction s < 2 ^ (2 * hsz) := by
  have hunroll : feistelRounds h key hsz (2 ^ hsz - 1) direction s =
      feistelRound h key hsz (2 ^ hsz - 1) direction 8
        (feistelRound h key hsz (2 ^ hsz - 1) direction 7
          ((List.range 7).foldl
            (fun t i => feistelRound h key hsz (2 ^ hsz - 1) direction i t) s)) := by
    rfl
  rw [attemptResult, hunroll]
  exact assemble_lt (and_mask_lt _) (and_mask_lt _)

/-- Two successful encryption walks that reach the same offset must have
started from the same value: the (in-range) destination of the shorter walk
would otherwise appear strictly inside the longer walk, contradicting the
minimality of the longer walk. -/
lemma encrypt_walk_inj (h : Nat → Nat) {minval maxval : Int} (key : Nat)
    (hmm : minval ≤ maxval) (hbig : maxval - minval ≤ 2 ^ 64 - 2)
    {va vb : Int} (ha1 : minval ≤ va) (ha2 : va ≤ maxval)
    (hb1 : minval ≤ vb) (hb2 : vb ≤ maxval)
    {ma mb : Nat} (hma : 1 ≤ ma) (_hmb : 1 ≤ mb) (hle : ma ≤ mb)
    (heq : (numStep h (scramble_key h key) (cipherHsz minval maxval)
        (cipherMask minval maxval) 0)^[ma] (va - minval).toNat =
      (numStep h (scramble_key h key) (cipherHsz minval maxval)
        (cipherMask minval maxval) 0)^[mb] (vb - minval).toNat)
    (hda : (numStep h (scramble_key h key) (cipherHsz minval maxval)
        (cipherMask minval maxval) 0)^[ma] (va - minval).toNat ≤
      (maxval - minval).toNat)
    (hminb : ∀ j, 1 ≤ j → j < mb →
      (maxval - minval).toNat <
        (numStep h (scramble_key h key) (cipherHsz minval maxval)
          (cipherMask minval maxval) 0)^[j] (vb - minval).toNat) :
    va = vb := by
  have hda0 := (cipher_dom hmm hbig ha1 ha2).1
  have hdb0 := (cipher_dom hmm hbig hb1 hb2).1
  have hmask : cipherMask minval maxval = 2 ^ cipherHsz minval maxval - 1 := rfl
  rw [hmask] at heq hda hminb
  have happ := congrArg
    ((numStep h (scramble_key h key) (cipherHsz minval maxval)
      (2 ^ cipherHsz minval maxval - 1) 1)^[ma]) heq
  rw [numStep_iterate_inv h _ _ hda0 ma,
    numStep_iterate_back h _ _ hdb0 hle] at happ
  rcases Nat.eq_or_lt_of_le hle with hcase | hcase
  · rw [← hcase, Nat.sub_self, Function.iterate_zero_apply] at happ
    omega
  · exfalso
    have := hminb (mb - ma) (by omega) (by omega)
    rw [← happ] at this
    rw [happ] at heq
    omega

/-- On int64 inputs the overflow guards of `check_sequence_range` keep every
intermediate value inside the signed 64-bit range, so evaluating the
function with wrapped machine arithmetic agrees with the ideal reading. -/
lemma check_sequence_range_wrapped_eq (minv maxv : Int)
    (b1 : -(2 ^ 63) ≤ minv) (b2 : minv ≤ 2 ^ 63 - 1)
    (b3 : -(2 ^ 63) ≤ maxv) (b4 : maxv ≤ 2 ^ 63 - 1) :
    check_sequence_range_wrapped minv maxv = check_sequence_range minv maxv := by
  have e1 : INT64_MIN = -(2 ^ 63) := rfl
  have e2 : INT64_MAX = 2 ^ 63 - 1 := rfl
  rw [check_sequence_range_wrapped, check_sequence_range, e1, e2]
  by_cases h1 : minv > 0
  · have hn2 : ¬ minv < 0 := by omega
    have w1 : wrapI64 (-(2 ^ 63) + minv) = -(2 ^ 63) + minv :=
      wrapI64_small (by omega) (by omega)
    rw [w1]
    by_cases h3 : maxv < -(2 ^ 63) + minv
    · rw [if_pos (Or.inl ⟨h1, h3⟩), if_pos (Or.inl ⟨h1, h3⟩)]
    · have hcw : ¬ ((minv > 0 ∧ maxv < -(2 ^ 63) + minv) ∨
          (minv < 0 ∧ maxv > wrapI64 (2 ^ 63 - 1 + minv))) := by
        rintro (⟨-, hx⟩ | ⟨hx, -⟩)
        · exact h3 hx
        · exact hn2 hx
      have hci : ¬ ((minv > 0 ∧ maxv < -(2 ^ 63) + minv) ∨
          (minv < 0 ∧ maxv > 2 ^ 63 - 1 + minv)) := by
        rintro (⟨-, hx⟩ | ⟨hx, -⟩)
        · exact h3 hx
        · exact hn2 hx
      rw [if_neg hcw, if_neg hci]
      have w2 : wrapI64 (maxv - minv) = maxv - minv :=
        wrapI64_small (by omega) (by omega)
      rw [w2]
  · have w1 : wrapI64 (2 ^ 63 - 1 + minv) = 2 ^ 63 - 1 + minv :=
      wrapI64_small (by omega) (by omega)
    rw [w1]
    by_cases h3 : minv < 0 ∧ maxv > 2 ^ 63 - 1 + minv
    · rw [if_pos (Or.inr h3), if_pos (Or.inr h3)]
    · have hcw : ¬ ((minv > 0 ∧ maxv < wrapI64 (-(2 ^ 63) + minv)) ∨
          (minv < 0 ∧ maxv > 2 ^ 63 - 1 + minv)) := by
        rintro (⟨hx, -⟩ | hx)
        · exact h1 hx
        · exact h3 hx
      have hc : ¬ ((minv > 0 ∧ maxv < -(2 ^ 63) + minv) ∨
          (minv < 0 ∧ maxv > 2 ^ 63 - 1 + minv)) := by
        rintro (⟨hx, -⟩ | hx)
        · exact h1 hx
        · exact h3 hx
      rw [if_neg hcw, if_neg hc]
      have hub : maxv - minv ≤ 2 ^ 63 - 1 := by
        by_cases hm : minv < 0
        · have hx : ¬ maxv > 2 ^ 63 - 1 + minv := fun hgt => h3 ⟨hm, hgt⟩
          omega
        · omega
      have w2 : wrapI64 (maxv - minv) = maxv - minv :=
        wrapI64_small (by omega) hub
      rw [w2]

/-! ### Claim theorems -/

/-- C9: `range_encrypt_element` and `range_decrypt_element` fail with
`ValueOutOfRange` exactly when the input value lies outside
`[minval, maxval]` (so the endpoints are accepted and `minval - 1`,
`maxval + 1` are rejected); the check precedes the cipher, and no other
input produces that error. -/
theorem C9_value_bounds_check (h : Nat → Nat) (v minval maxval : Int) (key : Nat) :
    (range_encrypt_element h v minval maxval key =
        Except.error CipherError.ValueOutOfRange ↔ (v < minval ∨ v > maxval)) ∧
    (range_decrypt_element h v minval maxval key =
        Except.error CipherError.ValueOutOfRange ↔ (v < minval ∨ v > maxval)) := by
  constructor
  · rw [range_encrypt_element]
    by_cases hc : v < minval ∨ v > maxval
    · rw [if_pos hc]
      simp [hc]
    · rw [if_neg hc]
      simp only [hc, iff_false]
      exact (cycle_not_error_small h minval maxval v key 0).2
  · rw [range_decrypt_element]
    by_cases hc : v < minval ∨ v > maxval
    · rw [if_pos hc]
      simp [hc]
    · rw [if_neg hc]
      simp only [hc, iff_false]
      exact (cycle_not_error_small h minval maxval v key 1).2

/-- C4 (failing input): on the full 64-bit range the encrypt-side validator
`check_sequence_range` reports the range as valid, and its machine-level
(wrapped) reading agrees; but the decrypt entry point `reverse_permute`
computes `maxval - minval` directly, which wraps to `-1`, so it wrongly
fails with `RangeTooSmall`. -/
theorem C4_full_range_validation :
    check_sequence_range INT64_MIN INT64_MAX = true ∧
    check_sequence_range_wrapped INT64_MIN INT64_MAX = true ∧
    wrapI64 (INT64_MAX - INT64_MIN) = -1 ∧
    reverse_permute hTest INT64_MIN INT64_MAX 0 0 =
      Except.error CipherError.RangeTooSmall := by
  refine ⟨by decide, by decide, by decide, by rfl⟩

/-- C3 (amended): `permute_nextval` accepts a 4-element range and rejects a
3-element range with `RangeTooSmall` before any cipher work;
`reverse_permute` rejects every range of fewer than 5 elements, including
the 4-element range, and accepts 5 elements; `range_encrypt_element` and
`range_decrypt_element` perform no range-size validation at all and can
never produce `RangeTooSmall`. -/
theorem C3_range_size_checks (h : Nat → Nat) (minval v : Int) (key : Nat) :
    check_sequence_range minval (minval + 3) = true ∧
    check_sequence_range minval (minval + 2) = false ∧
    permute_nextval h minval (minval + 2) v key =
      Except.error CipherError.RangeTooSmall ∧
    permute_nextval h minval (minval + 3) v key ≠
      Except.error CipherError.RangeTooSmall ∧
    reverse_permute h minval (minval + 3) v key =
      Except.error CipherError.RangeTooSmall ∧
    reverse_permute h minval (minval + 4) v key ≠
      Except.error CipherError.RangeTooSmall ∧
    (∀ maxval : Int, range_encrypt_element h v minval maxval key ≠
      Except.error CipherError.RangeTooSmall) ∧
    (∀ maxval : Int, range_decrypt_element h v minval maxval key ≠
      Except.error CipherError.RangeTooSmall) := by
  have e1 : INT64_MIN = -(2 ^ 63) := rfl
  have e2 : INT64_MAX = 2 ^ 63 - 1 := rfl
  have ha : check_sequence_range minval (minval + 3) = true := by
    rw [check_sequence_range]
    split
    · rfl
    · rw [decide_eq_true_eq]
      omega
  have hb : check_sequence_range minval (minval + 2) = false := by
    rw [check_sequence_range, if_neg, decide_eq_false_iff_not]
    · omega
    · rw [e1, e2]
      rintro (⟨-, hx⟩ | ⟨-, hx⟩) <;> omega
  have hw3 : wrapI64 (minval + 3 - minval) = 3 := by
    have : minval + 3 - minval = 3 := by ring
    rw [this]
    exact wrapI64_small (by omega) (by omega)
  have hw4 : wrapI64 (minval + 4 - minval) = 4 := by
    have : minval + 4 - minval = 4 := by ring
    rw [this]
    exact wrapI64_small (by omega) (by omega)
  refine ⟨ha, hb, ?_, ?_, ?_, ?_, ?_, ?_⟩
  · rw [permute_nextval, hb]
    rw [if_pos (by simp)]
  · intro hcon
    rw [permute_nextval, ha, if_neg (by simp)] at hcon
    split at hcon
    · exact absurd hcon (by simp)
    · exact (cycle_not_error_small h minval (minval + 3) v key 0).1 hcon
  · rw [reverse_permute, hw3, if_pos (by omega)]
  · intro hcon
    rw [reverse_permute, hw4, if_neg (by omega)] at hcon
    split at hcon
    · exact absurd hcon (by simp)
    · exact (cycle_not_error_small h minval (minval + 4) v key 1).1 hcon
  · intro maxval hcon
    rw [range_encrypt_element] at hcon
    split at hcon
    · exact absurd hcon (by simp)
    · exact (cycle_not_error_small h minval maxval v key 0).1 hcon
  · intro maxval hcon
    rw [range_decrypt_element] at hcon
    split at hcon
    · exact absurd hcon (by simp)
    · exact (cycle_not_error_small h minval maxval v key 1).1 hcon

/-- C3 (counterexample): the claim fails as stated — `reverse_permute`
rejects the 4-element range `[0, 3]` with `RangeTooSmall`, and
`range_encrypt_element` accepts the 3-element range `[0, 2]` and encrypts
normally. -/
theorem C3_counterexample :
    reverse_permute hTest 0 3 1 0 = Except.error CipherError.RangeTooSmall ∧
    range_encrypt_element hTest 0 0 2 0 = Except.ok 2 := by
  exact ⟨by rfl, by rfl⟩

/-- C7 (counterexample): the round subkey is not an `hsz`-bit wrapping
window of the scrambled key: for the scrambled key 4, `hsz = 1`, encrypt
round 1, the code computes 3 while the claimed hsz-bit window value is 1
(the code keeps 32 bits of the shifted key, not `hsz`, and does not wrap
the key around). -/
theorem C7_counterexample : subkey 4 1 0 1 ≠ subkeySpecWindow 4 1 1 := by
  decide

/-- C7 (amended): the round subkey is the 32-bit truncation of the
scrambled key shifted right by `(hsz * j) mod 64` bits, plus `j`, modulo
`2^32`, where `j = i` when encrypting and `j = NR-1-i` when decrypting —
so decrypt round `i` uses exactly the subkey that encrypt uses at round
`NR-1-i`. -/
theorem C7_subkey_schedule (key hsz i : Nat) :
    subkey key hsz 1 i = subkey key hsz 0 (NR - 1 - i) ∧
    subkey key hsz 0 i =
      ((key >>> ((hsz * i) % 64)) % 2 ^ 32 + i) % 2 ^ 32 := by
  constructor
  · rfl
  · have hand : (hsz * i) &&& 0x3f = (hsz * i) % 64 := by
      have h63 : (0x3f : Nat) = 2 ^ 6 - 1 := by norm_num
      rw [h63, Nat.and_pow_two_sub_one_eq_mod]
    show ((key >>> ((hsz * i) &&& 0x3f)) % 2 ^ 32 + i) % 2 ^ 32 = _
    rw [hand]

/-- C8: one walking attempt is exactly `NR = 9` Feistel rounds — each round
maps `(l, r)` to `(r, (l XOR hash(r) XOR hash(subkey)) & mask)`, carrying
state across rounds — and the output is reassembled as `(r << hsz) | l`,
an unsigned value in `[0, 2^(2*hsz) - 1]`. -/
theorem C8_feistel_network (h : Nat → Nat) (key hsz direction : Nat) (l r : Nat) :
    NR = 9 ∧
    (∀ (i : Nat) (s : Nat × Nat),
      feistelRound h key hsz (2 ^ hsz - 1) direction i s =
        (s.2, (s.1 ^^^ hash32 h s.2 ^^^ hash32 h (subkey key hsz direction i)) &&&
          (2 ^ hsz - 1))) ∧
    feistelRounds h key hsz (2 ^ hsz - 1) direction (l, r) =
      feistelRound h key hsz (2 ^ hsz - 1) direction 8
        (feistelRound h key hsz (2 ^ hsz - 1) direction 7
          (feistelRound h key hsz (2 ^ hsz - 1) direction 6
            (feistelRound h key hsz (2 ^ hsz - 1) direction 5
              (feistelRound h key hsz (2 ^ hsz - 1) direction 4
                (feistelRound h key hsz (2 ^ hsz - 1) direction 3
                  (feistelRound h key hsz (2 ^ hsz - 1) direction 2
                    (feistelRound h key hsz (2 ^ hsz - 1) direction 1
                      (feistelRound h key hsz (2 ^ hsz - 1) direction 0
                        (l, r))))))))) ∧
    attemptResult h key hsz (2 ^ hsz - 1) direction (l, r) =
      ((feistelRounds h key hsz (2 ^ hsz - 1) direction (l, r)).2 <<< hsz) |||
        (feistelRounds h key hsz (2 ^ hsz - 1) direction (l, r)).1 ∧
    attemptResult h key hsz (2 ^ hsz - 1) direction (l, r) < 2 ^ (2 * hsz) := by
  refine ⟨rfl, fun i s => rfl, by rfl, rfl, attemptResult_lt h key hsz direction (l, r)⟩

/-- C10: under the respective range validations, the sequence-based entry
points compute exactly the direct-range operations: with the sequence
supplying `nextval`, `permute_nextval` equals `range_encrypt_element`, and
`reverse_permute` equals `range_decrypt_element` — all four invoke the same
`cycle_walking_cipher`, differing only in direction flag and validation. -/
theorem C10_entry_points_agree (h : Nat → Nat) (minval maxval v : Int) (key : Nat)
    (hc : check_sequence_range minval maxval = true)
    (hr : 4 ≤ wrapI64 (maxval - minval)) :
    permute_nextval h minval maxval v key =
      range_encrypt_element h v minval maxval key ∧
    reverse_permute h minval maxval v key =
      range_decrypt_element h v minval maxval key := by
  constructor
  · rw [permute_nextval, range_encrypt_element, hc, if_neg (by simp)]
  · rw [reverse_permute, range_decrypt_element, if_neg (by omega)]

/-- C10 (witness): concrete agreement on the range `[0, 9]` with key 7 and
value 5. -/
theorem C10_witness :
    permute_nextval hTest 0 9 5 7 = range_encrypt_element hTest 5 0 9 7 ∧
    reverse_permute hTest 0 9 5 7 = range_decrypt_element hTest 5 0 9 7 :=
  C10_entry_points_agree hTest 0 9 5 7 (by decide) (by decide)

/-- C5 (counterexample): for the full 64-bit range the computed `interval`
wraps to 0 and the half block size comes out as 1, not the smallest capped
value satisfying `2^(2*hsz) ≥ 2^64`; the working domain (4 values) is then
smaller than the interval.  Moreover for a one-element range the working
domain equals `4 * interval_size`, so it is not strictly below it. -/
theorem C5_counterexample :
    cipherIntv INT64_MIN INT64_MAX = 0 ∧
    cipherHsz INT64_MIN INT64_MAX = 1 ∧
    2 ^ (2 * cipherHsz INT64_MIN INT64_MAX) < 2 ^ 64 ∧
    cipherHsz 0 0 = 1 ∧ ¬ 2 ^ (2 * cipherHsz 0 0) < 4 * 1 := by
  refine ⟨by decide, by decide, by decide, by decide, by decide⟩

/-- C5 (amended): for every range of at most `2^64 - 1` values the half
block size is the smallest integer `≥ 1`, capped at 32, with
`2^(2*hsz) ≥ interval_size`; the working domain is at least
`interval_size`, and strictly below `4 * interval_size` whenever
`interval_size ≥ 2`. -/
theorem C5_half_block_size (minval maxval : Int) (hmm : minval ≤ maxval)
    (hbig : maxval - minval ≤ 2 ^ 64 - 2) :
    1 ≤ cipherHsz minval maxval ∧ cipherHsz minval maxval ≤ 32 ∧
    (maxval - minval + 1).toNat ≤ 2 ^ (2 * cipherHsz minval maxval) ∧
    (∀ k, 1 ≤ k → k < cipherHsz minval maxval →
      2 ^ (2 * k) < (maxval - minval + 1).toNat) ∧
    (2 ≤ (maxval - minval + 1).toNat →
      2 ^ (2 * cipherHsz minval maxval) < 4 * (maxval - minval + 1).toNat) := by
  have hintv : cipherIntv minval maxval = (maxval - minval + 1).toNat := by
    rw [cipherIntv, toU64_small_toNat (by omega) (by omega)]
  have hhsz : cipherHsz minval maxval = hszOf ((maxval - minval + 1).toNat) := by
    rw [cipherHsz, hintv]
  rw [hhsz]
  exact ⟨hszOf_pos _, hszOf_le _, hszOf_big (by omega),
    fun k hk1 hk2 => hszOf_min _ hk1 hk2, fun h2 => hszOf_tight h2⟩

/-- C5 (witness): on the range `[0, 9]` the computed half block size obeys
the amended characterisation. -/
theorem C5_witness :
    1 ≤ cipherHsz 0 9 ∧ cipherHsz 0 9 ≤ 32 ∧
    ((9 : Int) - 0 + 1).toNat ≤ 2 ^ (2 * cipherHsz 0 9) := by
  obtain ⟨h1, h2, h3, -, -⟩ := C5_half_block_size 0 9 (by decide) (by decide)
  exact ⟨h1, h2, h3⟩

/-- C6: `cycle_walking_cipher` returns `minval` plus the first Feistel
result along the walk that is strictly below the interval size, provided it
appears within `walk_max = 1000000` attempts, and fails with
`CycleLimitExceeded` exactly when no attempt within that bound lands inside
the interval. -/
theorem C6_cycle_walking_loop (h : Nat → Nat) (minval maxval v : Int)
    (key direction : Nat) (hmm : minval ≤ maxval)
    (hbig : maxval - minval ≤ 2 ^ 64 - 1) :
    (∀ r : Int,
      cycle_walking_cipher h minval maxval v key direction = Except.ok r ↔
      ∃ m, 1 ≤ m ∧ m ≤ walk_max ∧
        cipherRes h minval maxval v key direction m <
          (maxval - minval).toNat + 1 ∧
        (∀ j, 1 ≤ j → j < m →
          (maxval - minval).toNat + 1 ≤
            cipherRes h minval maxval v key direction j) ∧
        r = minval + (cipherRes h minval maxval v key direction m : Int)) ∧
    (cycle_walking_cipher h minval maxval v key direction =
        Except.error CipherError.CycleLimitExceeded ↔
      ∀ j, 1 ≤ j → j ≤ walk_max →
        (maxval - minval).toNat + 1 ≤
          cipherRes h minval maxval v key direction j) := by
  have hbound : toU64 (maxval - minval) = (maxval - minval).toNat :=
    toU64_small_toNat (by omega) (by omega)
  simp only [cipherRes]
  rw [cycle_walking_cipher, hbound]
  cases hw : walkLoop h (scramble_key h key) (cipherHsz minval maxval)
      (cipherMask minval maxval) direction ((maxval - minval).toNat) walk_max
      (initState (toU64 (v - minval)) (cipherHsz minval maxval)
        (cipherMask minval maxval)) with
  | some res =>
    rw [walkLoop_some_iff] at hw
    obtain ⟨m, hm1, hm2, hm3, hm4, hm5⟩ := hw
    constructor
    · intro r
      simp only [Except.ok.injEq]
      constructor
      · intro hok
        refine ⟨m, hm1, hm2, by omega,
          fun j hj1 hj2 => by have := hm4 j hj1 hj2; omega, ?_⟩
        rw [← hok, hm5]
      · rintro ⟨m', hm'1, hm'2, hm'3, hm'4, hm'5⟩
        have hmeq : m = m' := by
          rcases lt_trichotomy m m' with hlt | heq | hgt
          · have := hm'4 m hm1 hlt
            omega
          · exact heq
          · have := hm4 m' hm'1 hgt
            omega
        rw [hm'5, ← hmeq, ← hm5]
    · constructor
      · intro hcon
        exact absurd hcon (by simp)
      · intro hall
        have := hall m hm1 hm2
        omega
  | none =>
    rw [walkLoop_none_iff] at hw
    constructor
    · intro r
      constructor
      · intro hcon
        exact absurd hcon (by simp)
      · rintro ⟨m, hm1, hm2, hm3, -, -⟩
        have := hw m hm1 hm2
        omega
    · constructor
      · intro _ j hj1 hj2
        have := hw j hj1 hj2
        omega
      · intro _
        rfl

/-- C6 (witness): on the range `[0, 9]` with key 7 the first walking
attempt already lands inside the interval, so the cipher does not fail
with `CycleLimitExceeded`. -/
theorem C6_witness :
    cycle_walking_cipher hTest 0 9 5 7 0 ≠
      Except.error CipherError.CycleLimitExceeded := by
  intro hcon
  have hall := (C6_cycle_walking_loop hTest 0 9 5 7 0 (by decide)
    (by decide)).2.mp hcon
  have h1 := hall 1 (by decide) (by decide)
  have hval : cipherRes hTest 0 9 5 7 0 1 = 0 := by rfl
  rw [hval] at h1
  omega

/-- C1 (counterexample): on the full 64-bit range the computed interval
wraps to 0, the cipher collapses into `[minval, minval + 3]`, and
decrypting the encryption of `minval + 2^33` yields `minval`, not the
original value. -/
theorem C1_counterexample :
    range_encrypt_element hTest (INT64_MIN + 2 ^ 33) INT64_MIN INT64_MAX 0 =
      Except.ok (INT64_MIN + 2) ∧
    range_decrypt_element hTest (INT64_MIN + 2) INT64_MIN INT64_MAX 0 =
      Except.ok INT64_MIN ∧
    INT64_MIN ≠ INT64_MIN + 2 ^ 33 := by
  refine ⟨by rfl, by rfl, by decide⟩

/-- C1 (amended): for every range of at least 4 and at most `2^64 - 1`
values and every key, whenever encryption of an in-range value returns a
result, decrypting that result with the same range and key returns the
original value exactly. -/
theorem C1_roundtrip (h : Nat → Nat) (minval maxval v : Int) (key : Nat)
    (hval : 3 ≤ maxval - minval) (hbig : maxval - minval ≤ 2 ^ 64 - 2)
    (h5 : minval ≤ v) (h6 : v ≤ maxval) (w : Int)
    (hw : range_encrypt_element h v minval maxval key = Except.ok w) :
    range_decrypt_element h w minval maxval key = Except.ok v := by
  have hmm : minval ≤ maxval := by omega
  rw [range_encrypt_element, if_neg (by omega),
    cycle_char h v key 0 hmm hbig h5 h6 w] at hw
  obtain ⟨m, hm1, hm2, hm3, hm4, hm5⟩ := hw
  have hdom := (cipher_dom hmm hbig h5 h6).1
  have hmask : cipherMask minval maxval = 2 ^ cipherHsz minval maxval - 1 := rfl
  have hcast : (((numStep h (scramble_key h key) (cipherHsz minval maxval)
      (cipherMask minval maxval) 0)^[m] (v - minval).toNat : Nat) : Int) ≤
      (((maxval - minval).toNat : Nat) : Int) := by
    exact_mod_cast hm3
  have hwlo : minval ≤ w := by
    rw [hm5]
    omega
  have hwhi : w ≤ maxval := by
    rw [hm5]
    omega
  rw [range_decrypt_element, if_neg (by omega),
    cycle_char h w key 1 hmm hbig hwlo hwhi v]
  have hwoff : (w - minval).toNat =
      (numStep h (scramble_key h key) (cipherHsz minval maxval)
        (cipherMask minval maxval) 0)^[m] (v - minval).toNat := by
    rw [hm5]
    omega
  rw [hmask] at hm3 hm4 hwoff ⊢
  refine ⟨m, hm1, hm2, ?_, ?_, ?_⟩
  · rw [hwoff, numStep_iterate_inv h _ _ hdom m]
    omega
  · intro j hj1 hj2
    rw [hwoff, numStep_iterate_back h _ _ hdom (le_of_lt hj2)]
    exact hm4 (m - j) (by omega) (by omega)
  · rw [hwoff, numStep_iterate_inv h _ _ hdom m]
    omega

/-- C1 (witness): on the range `[0, 9]` with key 7, the value 5 encrypts to
0 and decrypting 0 returns 5. -/
theorem C1_witness : range_decrypt_element hTest 0 0 9 7 = Except.ok 5 :=
  C1_roundtrip hTest 0 9 5 7 (by decide) (by decide) (by decide) (by decide) 0
    (by rfl)

/-- C2 (counterexample): on the full 64-bit range encryption is not
injective — `minval` and `minval + 2^33` encrypt to the same value for any
mixing function, because the wrapped interval (0) makes the initial halves
collide. -/
theorem C2_counterexample :
    range_encrypt_element hTest INT64_MIN INT64_MIN INT64_MAX 0 =
      range_encrypt_element hTest (INT64_MIN + 2 ^ 33) INT64_MIN INT64_MAX 0 ∧
    INT64_MIN ≠ INT64_MIN + 2 ^ 33 := by
  refine ⟨by rfl, by decide⟩

/-- C2 (amended): for every range of at least 4 and at most `2^64 - 1`
values and every key, a successful encryption of an in-range value lands
inside `[minval, maxval]`, and two in-range values encrypting to the same
result are equal. -/
theorem C2_bijection_on_range (h : Nat → Nat) (minval maxval v1 v2 w : Int)
    (key : Nat) (hval : 3 ≤ maxval - minval) (hbig : maxval - minval ≤ 2 ^ 64 - 2)
    (hv1 : minval ≤ v1) (hv1m : v1 ≤ maxval)
    (hv2 : minval ≤ v2) (hv2m : v2 ≤ maxval) :
    (range_encrypt_element h v1 minval maxval key = Except.ok w →
      minval ≤ w ∧ w ≤ maxval) ∧
    (range_encrypt_element h v1 minval maxval key = Except.ok w →
      range_encrypt_element h v2 minval maxval key = Except.ok w → v1 = v2) := by
  have hmm : minval ≤ maxval := by omega
  constructor
  · intro hw
    rw [range_encrypt_element, if_neg (by omega),
      cycle_char h v1 key 0 hmm hbig hv1 hv1m w] at hw
    obtain ⟨m, hm1, hm2, hm3, hm4, hm5⟩ := hw
    have hcast : (((numStep h (scramble_key h key) (cipherHsz minval maxval)
        (cipherMask minval maxval) 0)^[m] (v1 - minval).toNat : Nat) : Int) ≤
        (((maxval - minval).toNat : Nat) : Int) := by
      exact_mod_cast hm3
    constructor
    · rw [hm5]
      omega
    · rw [hm5]
      omega
  · intro hw1 hw2
    rw [range_encrypt_element, if_neg (by omega),
      cycle_char h v1 key 0 hmm hbig hv1 hv1m w] at hw1
    rw [range_encrypt_element, if_neg (by omega),
      cycle_char h v2 key 0 hmm hbig hv2 hv2m w] at hw2
    obtain ⟨m1, h11, h12, h13, h14, h15⟩ := hw1
    obtain ⟨m2, h21, h22, h23, h24, h25⟩ := hw2
    have heq : (numStep h (scramble_key h key) (cipherHsz minval maxval)
        (cipherMask minval maxval) 0)^[m1] (v1 - minval).toNat =
        (numStep h (scramble_key h key) (cipherHsz minval maxval)
          (cipherMask minval maxval) 0)^[m2] (v2 - minval).toNat := by
      have hsum : minval + ((numStep h (scramble_key h key)
          (cipherHsz minval maxval) (cipherMask minval maxval) 0)^[m1]
            (v1 - minval).toNat : Int) =
          minval + ((numStep h (scramble_key h key) (cipherHsz minval maxval)
            (cipherMask minval maxval) 0)^[m2] (v2 - minval).toNat : Int) := by
        rw [← h15, ← h25]
      omega
    rcases le_total m1 m2 with hle | hle
    · exact encrypt_walk_inj h key hmm hbig hv1 hv1m hv2 hv2m h11 h21 hle heq
        h13 h24
    · exact (encrypt_walk_inj h key hmm hbig hv2 hv2m hv1 hv1m h21 h11 hle
        heq.symm h23 h14).symm

/-- C2 (witness): on the range `[0, 9]` with key 7, the encryption of 5 is
0, which lies inside the range. -/
theorem C2_witness : (0 : Int) ≤ 0 ∧ (0 : Int) ≤ 9 :=
  (C2_bijection_on_range hTest 0 9 5 5 0 7 (by decide) (by decide) (by decide)
    (by decide) (by decide) (by decide)).1 (by rfl)

end Permuteseq
